import Mathlib

/-!
Shallow embedding of the `prot` voice-assistant runtime, restricted to the
components the verified claims are about: the sentence chunker
(`src/prot/processing.py`), the state machine (`src/prot/state.py`), the
VAD hysteresis counter (`src/prot/vad.py`), the context manager
(`src/prot/context.py`), the conversation logger
(`src/prot/conversation_log.py`) and the GraphRAG store / memory extractor
(`src/prot/graphrag.py`, `src/prot/memory.py`).

Python strings are modelled as `List Char`; Python floats that the claims
depend on only through comparisons are modelled as `ℚ`; database `UUID`s
are modelled as `Nat` drawn from a counter.
-/

namespace Prot

/-- Convert a Lean string literal to the `List Char` representation used
throughout the embedding. -/
def str (s : String) : List Char := s.data

/-! ## Sentence chunker (`src/prot/processing.py`) -/

/-- Python `\s` / `str.strip()` whitespace, ASCII range (the repository
feeds the chunker text; the embedding models the ASCII whitespace class). -/
def pyIsSpace (c : Char) : Bool :=
  c = ' ' || c = '\t' || c = '\n' || c = '\x0d' || c = '\x0b' || c = '\x0c'

/-- The sentence terminators of `_RE_SENTENCE_SPLIT` / `_RE_SENTENCE_END`:
`[.!?~]`. -/
def isTerm (c : Char) : Bool :=
  c = '.' || c = '!' || c = '?' || c = '~'

/-- Python `str.strip()`: drop leading and trailing whitespace. -/
def pyStrip (l : List Char) : List Char :=
  ((l.dropWhile pyIsSpace).reverse.dropWhile pyIsSpace).reverse

/-- Split into maximal whitespace-separated words (the "modulo whitespace
normalization" view of a string).  `acc` is the word currently being read,
in reverse. -/
def wordsAux : List Char → List Char → List (List Char)
  | [], acc => if acc = [] then [] else [acc.reverse]
  | c :: rest, acc =>
      if pyIsSpace c then
        if acc = [] then wordsAux rest [] else acc.reverse :: wordsAux rest []
      else wordsAux rest (c :: acc)

/-- The whitespace-separated words of a string. -/
def wordsOf (l : List Char) : List (List Char) := wordsAux l []

/-- One step of `_RE_SENTENCE_SPLIT.split`: read one piece, up to (and
including) a terminator that is directly followed by whitespace; the
separator is the maximal whitespace run after that terminator (the regex
`(?<=[.!?~])\s+`).  Returns the piece and, if a separator was found, the
text after it. -/
def takePiece : List Char → List Char × Option (List Char)
  | [] => ([], none)
  | [c] => ([c], none)
  | c :: d :: rest =>
      if isTerm c && pyIsSpace d then
        ([c], some ((d :: rest).dropWhile pyIsSpace))
      else
        let pr := takePiece (d :: rest)
        (c :: pr.1, pr.2)

/-- Iterate `takePiece`; `fuel` bounds the recursion (each step strictly
shrinks the text, so `fuel = length` is enough). -/
def splitGo : Nat → List Char → List (List Char)
  | 0, l => [l]
  | fuel + 1, l =>
      match takePiece l with
      | (p, none) => [p]
      | (p, some r) => p :: splitGo fuel r

/-- `_RE_SENTENCE_SPLIT.split(text)`: the pieces between whitespace runs
that follow a sentence terminator. -/
def splitSentences (l : List Char) : List (List Char) := splitGo l.length l

/-- `_RE_SENTENCE_END.search(p)`: does the piece end with a terminator?
(The argument never ends in a newline here, so the `$` anchor is exactly
"last character".) -/
def endsTermB (l : List Char) : Bool :=
  match l.getLast? with
  | some c => isTerm c
  | none => false

/-- `MAX_BUFFER_CHARS` from `processing.py`. -/
def MAX_BUFFER_CHARS : Nat := 2000

/-- `chunk_sentences(text)` from `processing.py`: split text into complete
sentences and a trailing remainder, force-flushing an oversized remainder. -/
def chunk_sentences (text : List Char) : List (List Char) × List Char :=
  let stripped := pyStrip text
  if stripped = [] then ([], [])
  else
    let parts := splitSentences stripped
    match parts.getLast? with
    | none => ([], stripped)
    | some lastP =>
        if endsTermB lastP then
          ((parts.map pyStrip).filter (· ≠ []), [])
        else
          let remainder := pyStrip lastP
          let complete := (parts.dropLast.map pyStrip).filter (· ≠ [])
          if MAX_BUFFER_CHARS < remainder.length then
            (complete ++ [remainder], [])
          else
            (complete, remainder)

/-- The stripped terminator-free tail of the input: the value the source
binds to `remainder` before the `MAX_BUFFER_CHARS` check (empty in the
branches where no such tail exists). -/
def rawTail (text : List Char) : List Char :=
  let stripped := pyStrip text
  if stripped = [] then []
  else
    match (splitSentences stripped).getLast? with
    | none => []
    | some lastP => if endsTermB lastP then [] else pyStrip lastP

/-! ## State machine (`src/prot/state.py`) -/

/-- The six turn states of `state.State`. -/
inductive State
  | idle
  | listening
  | processing
  | speaking
  | active
  | interrupted
deriving DecidableEq

/-- The `.value` string of each state. -/
def State.value : State → List Char
  | .idle => str ("idle")
  | .listening => str ("listening")
  | .processing => str ("processing")
  | .speaking => str ("speaking")
  | .active => str ("active")
  | .interrupted => str ("interrupted")

/-- `StateMachine.VALID_TRANSITIONS` from `state.py`. -/
def VALID_TRANSITIONS : State → List State
  | .idle => [.listening]
  | .listening => [.processing]
  | .processing => [.speaking]
  | .speaking => [.active, .interrupted]
  | .active => [.idle, .listening]
  | .interrupted => [.listening]

/-- The mutable part of a `StateMachine` instance (the two VAD thresholds
are configuration-only and irrelevant to the transition claims). -/
structure StateMachine where
  state : State
deriving DecidableEq

/-- The `ValueError` message raised by `StateMachine._transition`. -/
def invalidMsg (src dst : List Char) : List Char :=
  str ("Invalid transition: ") ++ src ++ str (" -> ") ++ dst

/-- `StateMachine._transition`.  A Python method either mutates `self` and
returns, or raises leaving `self` untouched; the embedding returns the
post-state together with the optional error.  The validity check precedes
the assignment in the source, so on error the machine is returned
unchanged. -/
def transition (sm : StateMachine) (dst : State) : StateMachine × Option (List Char) :=
  if dst ∈ VALID_TRANSITIONS sm.state then ({ sm with state := dst }, none)
  else (sm, some (invalidMsg sm.state.value dst.value))

/-- `StateMachine.on_speech_detected`. -/
def on_speech_detected (sm : StateMachine) : StateMachine × Option (List Char) :=
  if sm.state = .idle ∨ sm.state = .active then transition sm .listening
  else if sm.state = .speaking then transition sm .interrupted
  else (sm, some (str ("Invalid transition: ") ++ sm.state.value ++ str (" -> speech_detected")))

/-- `StateMachine.on_utterance_complete`. -/
def on_utterance_complete (sm : StateMachine) : StateMachine × Option (List Char) :=
  transition sm .processing

/-- `StateMachine.on_tts_started`. -/
def on_tts_started (sm : StateMachine) : StateMachine × Option (List Char) :=
  transition sm .speaking

/-- `StateMachine.on_tts_complete`. -/
def on_tts_complete (sm : StateMachine) : StateMachine × Option (List Char) :=
  transition sm .active

/-- `StateMachine.try_on_tts_complete`. -/
def try_on_tts_complete (sm : StateMachine) : StateMachine × Bool :=
  if sm.state = .speaking then ({ sm with state := .active }, true) else (sm, false)

/-- `StateMachine.on_active_timeout`. -/
def on_active_timeout (sm : StateMachine) : StateMachine × Option (List Char) :=
  transition sm .idle

/-- `StateMachine.on_interrupt_handled`. -/
def on_interrupt_handled (sm : StateMachine) : StateMachine × Option (List Char) :=
  transition sm .listening

/-! ## Voice-activity detector (`src/prot/vad.py`)

`VADProcessor.__init__` stores `threshold`, `sample_rate`,
`speech_count_threshold` and `speech_count` (plus a pre-allocated float
scratch buffer that never survives a call).  Audio chunks are int16 sample
lists; the Silero model is abstracted as a probability oracle passed in. -/

structure VADProcessor where
  threshold : ℚ
  sampleRate : Nat
  speechCountThreshold : Nat
  speechCount : Nat
deriving DecidableEq

/-- `VADProcessor.is_speech`: hysteretic counter over the model
probability; returns the updated processor and the speech flag. -/
def VADProcessor.is_speech (probOf : List Int → ℚ) (v : VADProcessor)
    (chunk : List Int) : VADProcessor × Bool :=
  let v' := if v.threshold ≤ probOf chunk
    then { v with speechCount := v.speechCount + 1 }
    else { v with speechCount := 0 }
  (v', v'.speechCountThreshold ≤ v'.speechCount)

/-- `VADProcessor.reset`. -/
def VADProcessor.reset (v : VADProcessor) : VADProcessor :=
  { v with speechCount := 0 }

/-! ## Conversation messages (`context.py`, `conversation_log.py`) -/

/-- A content block as the code distinguishes them: an SDK object carrying
a `.text` attribute, a plain dict (with optional `"type"` and `"text"`
keys), or anything else. -/
inductive Block
  | obj (text : List Char)
  | dict (btype : Option (List Char)) (text : Option (List Char))
  | other
deriving DecidableEq

/-- Message content: a plain string or a list of content blocks. -/
inductive Content
  | text (s : List Char)
  | blocks (l : List Block)
deriving DecidableEq

/-- A conversation message `{role, content}`. -/
structure Message where
  role : List Char
  content : Content
deriving DecidableEq

/-- `" ".join(...)` over already-computed pieces. -/
def joinSep (sep : List Char) : List (List Char) → List Char
  | [] => []
  | [x] => x
  | x :: xs => x ++ sep ++ joinSep sep xs

/-- `conversation_log._content_to_text` applied to one block:
`block.text if hasattr(block, "text") else str(block.get("text", "")) if
isinstance(block, dict) else ""`. -/
def blockText : Block → List Char
  | .obj t => t
  | .dict _ t => t.getD []
  | .other => []

/-- `conversation_log._content_to_text`. -/
def content_to_text : Content → List Char
  | .text s => s
  | .blocks l => joinSep (str (" ")) (l.map blockText)

/-! ## Context manager (`src/prot/context.py`)

For the aliasing claim the Python lists are modelled with an explicit
heap: an address is an index, the context manager holds the address of its
message log, and `list(self._messages)` allocates a fresh cell holding a
copy. -/

/-- The heap of Python list objects relevant here. -/
abbrev Heap := List (List Message)

/-- Read the list object at an address (a dangling address reads `[]`). -/
def heapRead (h : Heap) (a : Nat) : List Message := h.getD a []

/-- In-place mutation of the list object at an address. -/
def heapWrite (h : Heap) (a : Nat) (v : List Message) : Heap := h.set a v

/-- `ContextManager` state: persona, RAG context, and the address of
`self._messages`. -/
structure ContextManager where
  persona : List Char
  ragContext : List Char
  msgsAddr : Nat
deriving DecidableEq

/-- `ContextManager.__init__`: allocates the empty `self._messages` list. -/
def ContextManager.new (h : Heap) (persona : List Char) : Heap × ContextManager :=
  (h ++ [[]], ⟨persona, [], h.length⟩)

/-- `ContextManager.add_message`: appends to the internal list in place. -/
def add_message (h : Heap) (cm : ContextManager) (role : List Char)
    (content : Content) : Heap :=
  heapWrite h cm.msgsAddr (heapRead h cm.msgsAddr ++ [⟨role, content⟩])

/-- `ContextManager.get_messages`: `list(self._messages)` — allocates a
fresh list holding a copy and returns its address. -/
def get_messages (h : Heap) (cm : ContextManager) : Heap × Nat :=
  (h ++ [heapRead h cm.msgsAddr], h.length)

/-- A sequence of `add_message` calls. -/
def applyAdds (h : Heap) (cm : ContextManager) : List (List Char × Content) → Heap
  | [] => h
  | (r, c) :: rest => applyAdds (add_message h cm r c) cm rest

/-- `isinstance(b, dict) and b.get("type") == "tool_result"`. -/
def isToolResultDict : Block → Bool
  | .dict (some t) _ => t = str ("tool_result")
  | _ => false

/-- The loop condition of `get_recent_messages`: the boundary message is
dropped if its role is not `user`, or its content is a block list
containing any `tool_result` dict. -/
def boundaryBad (m : Message) : Bool :=
  if m.role = str ("user") then
    match m.content with
    | .blocks l => l.any isToolResultDict
    | .text _ => false
  else true

/-- Python `l[-m:]` for a non-negative `m`: note `-0 = 0`, so `m = 0`
yields the whole list, not the last zero elements. -/
def pyTailSlice {α : Type} (l : List α) (m : Nat) : List α :=
  if m = 0 then l else l.drop (l.length - m)

/-- `ContextManager.get_recent_messages` as a function of the message log. -/
def get_recent_messages (msgs : List Message) (maxTurns : Nat) : List Message :=
  (pyTailSlice msgs (maxTurns * 2)).dropWhile boundaryBad

/-! ## Conversation logger (`src/prot/conversation_log.py`)

`save_session` gets the current date and timestamp from the clock; the
embedding passes them as arguments.  The produced file content models
`json.dumps(data, ensure_ascii=False, indent=2)` on the fixed shape the
source builds. -/

/-- Lower-case hex digit. -/
def hexDigit (n : Nat) : Char :=
  if n < 10 then Char.ofNat (48 + n) else Char.ofNat (87 + n)

/-- JSON escaping of a single character as `json.dumps` performs it with
`ensure_ascii=False`: `"`, `\`, the named control escapes, `\u00XX` for
other control characters, and every other character (non-ASCII included)
verbatim. -/
def pyJsonEscapeChar (c : Char) : List Char :=
  if c = '"' then ['\\', '"']
  else if c = '\\' then ['\\', '\\']
  else if c = '\n' then ['\\', 'n']
  else if c = '\x0d' then ['\\', 'r']
  else if c = '\t' then ['\\', 't']
  else if c = '\x08' then ['\\', 'b']
  else if c = '\x0c' then ['\\', 'f']
  else if c.toNat < 32 then
    str ("\\u00") ++ [hexDigit (c.toNat / 16), hexDigit (c.toNat % 16)]
  else [c]

/-- A JSON string literal. -/
def jsonQuote (s : List Char) : List Char :=
  '"' :: (s.map pyJsonEscapeChar).flatten ++ ['"']

/-- One serialized message object, at the nesting depth `json.dumps`
prints it with `indent=2`. -/
def msgJson (m : Message) : List Char :=
  str ("\x7b\n      \"role\": ") ++ jsonQuote m.role
    ++ str (",\n      \"content\": ") ++ jsonQuote (content_to_text m.content)
    ++ str ("\n    \x7d")

/-- `json.dumps(data, ensure_ascii=False, indent=2)` for the record the
source builds (`messages` non-empty on this path). -/
def sessionJson (sessionId timestamp : List Char) (msgs : List Message) : List Char :=
  str ("\x7b\n  \"session_id\": ") ++ jsonQuote sessionId
    ++ str (",\n  \"timestamp\": ") ++ jsonQuote timestamp
    ++ str (",\n  \"messages\": [\n    ")
    ++ joinSep (str (",\n    ")) (msgs.map msgJson)
    ++ str ("\n  ],\n  \"version\": \"1.0\"\n\x7d")

/-- `ConversationLogger.save_session`: `None` on empty messages, else the
written path `{log_dir}/{today}-{str(session_id)[:8]}.json` and the
pretty-printed JSON content (`path.write_text`, i.e. whole-file write).
The pipeline constructs the logger with the default
`log_dir = "data/conversations"`. -/
def save_session (logDir today timestamp sessionId : List Char)
    (msgs : List Message) : Option (List Char × List Char) :=
  if msgs = [] then none
  else some
    (logDir ++ str ("/") ++ today ++ str ("-") ++ sessionId.take 8 ++ str (".json"),
     sessionJson sessionId timestamp msgs)

/-! ## GraphRAG store (`src/prot/graphrag.py`) and memory extractor
(`src/prot/memory.py`)

The `entities` / `relationships` tables are modelled as row lists with a
`(namespace, name)` resp. `(source_id, target_id, relation_type)` unique
key maintained by the upserts; `UUID`s are drawn from a counter; float
weights are `ℚ`; embeddings are opaque payloads. -/

/-- Opaque embedding payload. -/
abbrev Emb := List Int

/-- A row of the `entities` table (columns the claims touch;
`updated_at` is not modelled). -/
structure EntityRow where
  id : Nat
  ns : List Char
  name : List Char
  entityType : List Char
  description : List Char
  nameEmbedding : Option Emb
  mentionCount : Nat
deriving DecidableEq

/-- A row of the `relationships` table. -/
structure RelRow where
  id : Nat
  sourceId : Nat
  targetId : Nat
  relationType : List Char
  description : List Char
  weight : ℚ
deriving DecidableEq

/-- The database state the claims touch. -/
structure Store where
  entities : List EntityRow
  relationships : List RelRow
  nextId : Nat
deriving DecidableEq

/-- Update the first element satisfying the predicate (the unique-key row
under the table invariants). -/
def updateFirst {α : Type} (p : α → Bool) (f : α → α) : List α → List α
  | [] => []
  | r :: rest => if p r then f r :: rest else r :: updateFirst p f rest

/-- The `(namespace, name)` key match. -/
def entityKey (ns name : List Char) (r : EntityRow) : Bool :=
  decide (r.ns = ns ∧ r.name = name)

/-- Row lookup by `(namespace, name)`. -/
def findEntity (st : Store) (ns name : List Char) : Option EntityRow :=
  st.entities.find? (entityKey ns name)

/-- SQL `COALESCE(new, old)` on nullable values. -/
def coalesce {α : Type} (newVal old : Option α) : Option α :=
  match newVal with
  | some e => some e
  | none => old

/-- `GraphRAGStore.upsert_entity`: `INSERT ... ON CONFLICT (namespace,
name) DO UPDATE SET description = EXCLUDED.description, mention_count =
entities.mention_count + 1, name_embedding =
COALESCE(EXCLUDED.name_embedding, entities.name_embedding) RETURNING id`.
The fresh row's `mention_count` starts at the schema default (1);
the claims only concern the conflict path. -/
def upsert_entity (st : Store) (name entityType description : List Char)
    (embedding : Option Emb) (ns : List Char) : Store × Nat :=
  match findEntity st ns name with
  | some row =>
      let upd := fun r => { r with
        description := description,
        mentionCount := r.mentionCount + 1,
        nameEmbedding := coalesce embedding r.nameEmbedding }
      ({ st with entities := updateFirst (entityKey ns name) upd st.entities }, row.id)
  | none =>
      ({ st with
          entities := st.entities ++ [⟨st.nextId, ns, name, entityType, description, embedding, 1⟩],
          nextId := st.nextId + 1 }, st.nextId)

/-- The `(source_id, target_id, relation_type)` key match. -/
def relKey (s t : Nat) (ty : List Char) (r : RelRow) : Bool :=
  decide (r.sourceId = s ∧ r.targetId = t ∧ r.relationType = ty)

/-- `GraphRAGStore.upsert_relationship`: `INSERT ... ON CONFLICT
(source_id, target_id, relation_type) DO UPDATE SET description =
EXCLUDED.description, weight = EXCLUDED.weight RETURNING id`. -/
def upsert_relationship (st : Store) (sourceId targetId : Nat)
    (relationType description : List Char) (weight : ℚ) : Store × Nat :=
  match st.relationships.find? (relKey sourceId targetId relationType) with
  | some row =>
      let upd := fun r => { r with description := description, weight := weight }
      ({ st with relationships :=
          updateFirst (relKey sourceId targetId relationType) upd st.relationships }, row.id)
  | none =>
      ({ st with
          relationships := st.relationships ++
            [⟨st.nextId, sourceId, targetId, relationType, description, weight⟩],
          nextId := st.nextId + 1 }, st.nextId)

/-- Modelled from the spec: `GraphRAGStore.get_entity_id_by_name(name,
namespace, conn?)` is called by `memory.py` and declared in spec §4.10 but
its implementation is not under `src/` (only its callers and mocked tests
are).  Per the spec it is the id lookup for the unique `(namespace, name)`
entity, `None` when absent. -/
def get_entity_id_by_name (st : Store) (name ns : List Char) : Option Nat :=
  (findEntity st ns name).map (fun r => r.id)

/-- An extracted entity `{name, type, description}`. -/
structure EntityIn where
  name : List Char
  entityType : List Char
  description : List Char
deriving DecidableEq

/-- An extracted relationship `{source, target, type, description}`. -/
structure RelIn where
  source : List Char
  target : List Char
  relationType : List Char
  description : List Char
deriving DecidableEq

/-- The in-memory `entity_ids` dict: later assignments shadow earlier
ones, so insertion prepends and lookup takes the first hit. -/
abbrev NameMap := List (List Char × Nat)

/-- `entity_ids[name] = eid`. -/
def mapInsert (m : NameMap) (k : List Char) (v : Nat) : NameMap := (k, v) :: m

/-- `entity_ids.get(name)`. -/
def mapGet (m : NameMap) (k : List Char) : Option Nat :=
  (m.find? (fun kv => decide (kv.1 = k))).map (fun kv => kv.2)

/-- The default namespace `upsert_entity` is called with. -/
def DEFAULT_NS : List Char := str ("default")

/-- The entity loop of `save_extraction`: upsert each `(entity,
embedding)` pair and record `entity_ids[name] = eid`. -/
def upsertEntitiesPhase : Store → NameMap → List (EntityIn × Emb) → Store × NameMap
  | st, m, [] => (st, m)
  | st, m, (e, emb) :: rest =>
      let r := upsert_entity st e.name e.entityType e.description (some emb) DEFAULT_NS
      upsertEntitiesPhase r.1 (mapInsert m e.name r.2) rest

/-- Endpoint resolution in the relationship loop: the in-memory map first
(a present id is always truthy), then the store lookup. -/
def resolveName (st : Store) (m : NameMap) (n : List Char) : Option Nat :=
  match mapGet m n with
  | some i => some i
  | none => get_entity_id_by_name st n DEFAULT_NS

/-- One iteration of the relationship loop of `save_extraction`: upsert
when both endpoints resolve, otherwise leave the store untouched. -/
def stepRel (m : NameMap) (st : Store) (rel : RelIn) : Store :=
  match resolveName st m rel.source, resolveName st m rel.target with
  | some s, some t => (upsert_relationship st s t rel.relationType rel.description 1).1
  | _, _ => st

/-- `MemoryExtractor.save_extraction` (the store-visible part):
`if not entities: return` (nothing is saved at all), else upsert entities
building the in-memory map, then process relationships in order.
`embeddings` is what `embed_texts_contextual` returned; the source zips it
with the entities. -/
def save_extraction (st : Store) (entities : List EntityIn)
    (relationships : List RelIn) (embeddings : List Emb) : Store :=
  if entities = [] then st
  else
    let phase := upsertEntitiesPhase st [] (entities.zip embeddings)
    relationships.foldl (stepRel phase.2) phase.1

/-- Python `needle in hay` on strings: substring test. -/
def isSubstr (n : List Char) : List Char → Bool
  | [] => decide (n = [])
  | c :: rest => n.isPrefixOf (c :: rest) || isSubstr n rest

/-- The description merge rule as §4.12 of the spec states it (this rule
is nowhere in the source; the definition exists only to compare the
stored behaviour against the specified rule): if the existing description
is empty take the new one; else if the new one is already a substring of
the existing one keep the existing; else append `"\n" + new` and truncate
to 500 characters. -/
def specMergeDescription (existing newDescr : List Char) : List Char :=
  if existing = [] then newDescr
  else if isSubstr newDescr existing then existing
  else (existing ++ '\n' :: newDescr).take 500

/-! ## Theorems -/

/-- C1: the spec's transition table has `Speaking → Processing` via
`on_tool_iteration`, and `pipeline.py:362` and `test_state.py:106` rely on
it — but `state.py` neither defines `on_tool_iteration` nor admits the
target: `VALID_TRANSITIONS[SPEAKING] = {ACTIVE, INTERRUPTED}`, so routing
the transition through `_transition` raises and leaves the state at
`SPEAKING`. -/
theorem speaking_to_processing_rejected :
    State.processing ∉ VALID_TRANSITIONS State.speaking ∧
    transition ⟨State.speaking⟩ State.processing =
      (⟨State.speaking⟩, some (str ("Invalid transition: speaking -> processing"))) := by
  decide

/-- C2: `VADProcessor` retains no audio at all — its post-call state is a
function of the prior state and the chunk's threshold classification only,
so any two chunks classified alike leave behind identical processors, and
no ring of the last 8 raw chunks exists to drain. -/
theorem vad_is_speech_chunk_independent
    (probOf : List Int → ℚ) (v : VADProcessor) (c₁ c₂ : List Int)
    (h : v.threshold ≤ probOf c₁ ↔ v.threshold ≤ probOf c₂) :
    VADProcessor.is_speech probOf v c₁ = VADProcessor.is_speech probOf v c₂ := by
  unfold VADProcessor.is_speech
  by_cases h₁ : v.threshold ≤ probOf c₁
  · rw [if_pos h₁, if_pos (h.mp h₁)]
  · rw [if_neg h₁, if_neg (fun hh => h₁ (h.mpr hh))]

/-- Witness for C2's theorem at a concrete processor and two distinct
chunks. -/
theorem vad_is_speech_chunk_independent_witness :
    ((⟨1/2, 16000, 3, 0⟩ : VADProcessor).threshold ≤ (fun _ => (1 : ℚ)) [0] ↔
      (⟨1/2, 16000, 3, 0⟩ : VADProcessor).threshold ≤ (fun _ => (1 : ℚ)) [1, 2]) ∧
    VADProcessor.is_speech (fun _ => (1 : ℚ)) ⟨1/2, 16000, 3, 0⟩ [0] =
      VADProcessor.is_speech (fun _ => (1 : ℚ)) ⟨1/2, 16000, 3, 0⟩ [1, 2] :=
  ⟨Iff.rfl, vad_is_speech_chunk_independent (fun _ => (1 : ℚ)) ⟨1/2, 16000, 3, 0⟩ [0] [1, 2] Iff.rfl⟩

/-- C8: every transition to a target outside the table fails with the
`Invalid transition` error and returns the machine unchanged (the check
precedes the assignment), and `on_speech_detected` from `Listening`,
`Processing` or `Interrupted` likewise fails leaving the state as it
was. -/
theorem invalid_transition_error_atomic :
    (∀ (sm : StateMachine) (dst : State), dst ∉ VALID_TRANSITIONS sm.state →
      transition sm dst = (sm, some (invalidMsg sm.state.value dst.value)))
    ∧ (∀ sm : StateMachine,
        sm.state = State.listening ∨ sm.state = State.processing ∨
          sm.state = State.interrupted →
        on_speech_detected sm =
          (sm, some (str ("Invalid transition: ") ++ sm.state.value
            ++ str (" -> speech_detected")))) := by
  constructor
  · intro sm dst h
    simp [transition, h]
  · intro sm h
    obtain ⟨s⟩ := sm
    rcases h with h | h | h <;> simp_all [on_speech_detected]

/-- Witness for C8's theorem: `Idle → Processing` is outside the table and
errors without moving the state; `speech_detected` in `Listening`
errors without moving the state. -/
theorem invalid_transition_error_atomic_witness :
    transition ⟨State.idle⟩ State.processing =
      (⟨State.idle⟩, some (invalidMsg State.idle.value State.processing.value))
    ∧ on_speech_detected ⟨State.listening⟩ =
      (⟨State.listening⟩, some (str ("Invalid transition: ") ++ State.listening.value
        ++ str (" -> speech_detected"))) :=
  ⟨invalid_transition_error_atomic.1 ⟨State.idle⟩ State.processing (by decide),
   invalid_transition_error_atomic.2 ⟨State.listening⟩ (Or.inl rfl)⟩

/-- C3 counterexample: a conflicting upsert with new description `"a"`
onto existing description `"ab"` stores `"a"` — the spec's merge rule
(new is a substring of existing, so keep existing) would store `"ab"`. -/
theorem upsert_description_not_merged :
    ((upsert_entity ⟨[⟨0, str ("default"), str ("E"), str ("person"), str ("ab"), none, 1⟩], [], 1⟩
        (str ("E")) (str ("person")) (str ("a")) none (str ("default"))).1.entities.map
        (fun r => r.description) = [str ("a")])
    ∧ specMergeDescription (str ("ab")) (str ("a")) = str ("ab")
    ∧ str ("a") ≠ str ("ab") := by
  decide

/-- `updateFirst` rewrites exactly the first hit of the predicate, so a
`find?` after the update returns the rewritten row, provided the rewrite
preserves the predicate. -/
theorem find?_updateFirst {α : Type} (p : α → Bool) (f : α → α) :
    ∀ (l : List α) (a : α), l.find? p = some a → (∀ x, p x = true → p (f x) = true) →
      (updateFirst p f l).find? p = some (f a) := by
  intro l
  induction l with
  | nil => intro a h; simp at h
  | cons c rest ih =>
      intro a h hp
      by_cases hc : p c = true
      · rw [List.find?_cons_of_pos rest hc] at h
        obtain rfl : c = a := by simpa using h
        simp only [updateFirst, if_pos hc]
        exact List.find?_cons_of_pos _ (hp c hc)
      · rw [List.find?_cons_of_neg rest hc] at h
        simp only [updateFirst, if_neg hc]
        rw [List.find?_cons_of_neg _ hc]
        exact ih a h hp

/-- C3 (amended): on a `(namespace, name)` conflict the stored description
is simply replaced by the new description (no merge); `mention_count` is
incremented by 1; the embedding is replaced only if a new one is provided;
id, key and entity type are unchanged. -/
theorem upsert_entity_conflict_semantics
    (st : Store) (name etype descr : List Char) (emb : Option Emb) (ns : List Char)
    (row : EntityRow) (h : findEntity st ns name = some row) :
    (upsert_entity st name etype descr emb ns).2 = row.id ∧
    ∃ row', findEntity (upsert_entity st name etype descr emb ns).1 ns name = some row' ∧
      row'.description = descr ∧
      row'.mentionCount = row.mentionCount + 1 ∧
      row'.nameEmbedding = coalesce emb row.nameEmbedding ∧
      row'.id = row.id ∧ row'.ns = row.ns ∧ row'.name = row.name ∧
      row'.entityType = row.entityType := by
  have hfind : List.find? (entityKey ns name)
      (updateFirst (entityKey ns name)
        (fun r => { r with
          description := descr,
          mentionCount := r.mentionCount + 1,
          nameEmbedding := coalesce emb r.nameEmbedding }) st.entities) =
      some { row with
        description := descr,
        mentionCount := row.mentionCount + 1,
        nameEmbedding := coalesce emb row.nameEmbedding } := by
    refine find?_updateFirst (entityKey ns name) _ st.entities row h ?_
    intro x hx
    simpa [entityKey] using hx
  constructor
  · simp [upsert_entity, h]
  · refine ⟨{ row with
      description := descr,
      mentionCount := row.mentionCount + 1,
      nameEmbedding := coalesce emb row.nameEmbedding }, ?_, rfl, rfl, rfl, rfl, rfl, rfl, rfl⟩
    simp only [upsert_entity, h]
    simp only [findEntity]
    exact hfind

/-- Witness for C3's amended theorem at a one-row store. -/
theorem upsert_entity_conflict_semantics_witness :
    findEntity ⟨[⟨0, str ("default"), str ("E"), str ("person"), str ("ab"), none, 1⟩], [], 1⟩
        (str ("default")) (str ("E")) =
      some ⟨0, str ("default"), str ("E"), str ("person"), str ("ab"), none, 1⟩ ∧
    ((upsert_entity ⟨[⟨0, str ("default"), str ("E"), str ("person"), str ("ab"), none, 1⟩], [], 1⟩
        (str ("E")) (str ("person")) (str ("xy")) none (str ("default"))).2 = 0 ∧
      ∃ row', findEntity (upsert_entity
          ⟨[⟨0, str ("default"), str ("E"), str ("person"), str ("ab"), none, 1⟩], [], 1⟩
          (str ("E")) (str ("person")) (str ("xy")) none (str ("default"))).1
          (str ("default")) (str ("E")) = some row' ∧
        row'.description = str ("xy") ∧
        row'.mentionCount = 1 + 1 ∧
        row'.nameEmbedding = coalesce (none : Option Emb) none ∧
        row'.id = 0 ∧ row'.ns = str ("default") ∧ row'.name = str ("E") ∧
        row'.entityType = str ("person")) :=
  ⟨by decide,
   upsert_entity_conflict_semantics
     ⟨[⟨0, str ("default"), str ("E"), str ("person"), str ("ab"), none, 1⟩], [], 1⟩
     (str ("E")) (str ("person")) (str ("xy")) none (str ("default"))
     ⟨0, str ("default"), str ("E"), str ("person"), str ("ab"), none, 1⟩ (by decide)⟩

/-- C5: evaluated at a concrete session, `save_session` writes a
per-session file `data/conversations/{today}-{sid[:8]}.json` — not the
daily `logs/conversations/{today}.jsonl` — and its content spans multiple
lines (`indent=2`), not one JSON object on a single line; the write
replaces the file instead of appending (`path.write_text`). -/
theorem save_session_pretty_per_session_json :
    ((save_session (str ("data/conversations")) (str ("2026-10-12"))
        (str ("2026-10-12T00:00:00-07:00")) (str ("12345678-1234-1234-1234-123456789abc"))
        [⟨str ("user"), Content.text (str ("hello"))⟩]).map (fun pc => pc.1) =
      some (str ("data/conversations/2026-10-12-12345678.json")))
    ∧ ((save_session (str ("data/conversations")) (str ("2026-10-12"))
        (str ("2026-10-12T00:00:00-07:00")) (str ("12345678-1234-1234-1234-123456789abc"))
        [⟨str ("user"), Content.text (str ("hello"))⟩]).map (fun pc => pc.1) ≠
      some (str ("logs/conversations/2026-10-12.jsonl")))
    ∧ ((save_session (str ("data/conversations")) (str ("2026-10-12"))
        (str ("2026-10-12T00:00:00-07:00")) (str ("12345678-1234-1234-1234-123456789abc"))
        [⟨str ("user"), Content.text (str ("hello"))⟩]).map
          (fun pc => decide ('\n' ∈ pc.2)) = some true) := by
  decide

/-- C6 counterexample: a user message mixing a text block with a
`tool_result` block is NOT purely tool_result, yet `get_recent_messages`
trims it (the code tests `any`, not `all`), returning the empty window;
and with `max_turns = 0` the Python slice `messages[-0:]` is the whole
log, so one message is returned where "at most `0 * 2`" was claimed. -/
theorem recent_messages_counterexample :
    (get_recent_messages
        [⟨str ("user"), Content.blocks
          [Block.dict (some (str ("text"))) (some (str ("hi"))),
           Block.dict (some (str ("tool_result"))) none]⟩] 10 = [])
    ∧ isToolResultDict (Block.dict (some (str ("text"))) (some (str ("hi")))) = false
    ∧ (get_recent_messages [⟨str ("user"), Content.text (str ("hi"))⟩] 0 =
        [⟨str ("user"), Content.text (str ("hi"))⟩]) := by
  decide

/-- The head surviving a `dropWhile` fails the predicate. -/
theorem head?_dropWhile_not {α : Type} (p : α → Bool) :
    ∀ (l : List α) (x : α), (l.dropWhile p).head? = some x → p x = false := by
  intro l
  induction l with
  | nil => intro x h; simp at h
  | cons c rest ih =>
      intro x h
      by_cases hc : p c = true
      · rw [List.dropWhile_cons, if_pos hc] at h
        exact ih x h
      · rw [List.dropWhile_cons, if_neg hc] at h
        obtain rfl : c = x := by simpa using h
        exact Bool.not_eq_true _ |>.mp hc

/-- C6 (amended): for `max_turns ≥ 1`, `get_recent_messages` returns a
suffix of the last `max_turns * 2` messages (hence of the log), obtained
by trimming from the left exactly the messages that are not user messages
or whose block-list content contains some `tool_result` block; the first
kept message (if any) is a user message whose content is a plain string or
a block list with no `tool_result` block at all.  (A user message mixing
text and `tool_result` blocks is trimmed; for `max_turns = 0` the Python
slice `[-0:]` makes the window the whole log.) -/
theorem recent_messages_window (msgs : List Message) (maxTurns : Nat)
    (h : 1 ≤ maxTurns) :
    (get_recent_messages msgs maxTurns).length ≤ maxTurns * 2
    ∧ (∃ dropped, dropped ++ get_recent_messages msgs maxTurns =
          pyTailSlice msgs (maxTurns * 2)
        ∧ ∀ m ∈ dropped, boundaryBad m = true)
    ∧ (∀ m, (get_recent_messages msgs maxTurns).head? = some m →
        boundaryBad m = false)
    ∧ ∃ pre, pre ++ get_recent_messages msgs maxTurns = msgs := by
  have hm : ¬ maxTurns * 2 = 0 := by omega
  refine ⟨?_, ⟨(pyTailSlice msgs (maxTurns * 2)).takeWhile boundaryBad,
    List.takeWhile_append_dropWhile _ _, fun m hm' => List.mem_takeWhile_imp hm'⟩,
    fun m hm' => head?_dropWhile_not _ _ m hm', ?_⟩
  · have h1 : (get_recent_messages msgs maxTurns).length ≤
        (pyTailSlice msgs (maxTurns * 2)).length :=
      (List.dropWhile_sublist _).length_le
    have h2 : (pyTailSlice msgs (maxTurns * 2)).length ≤ maxTurns * 2 := by
      unfold pyTailSlice
      rw [if_neg hm, List.length_drop]
      omega
    omega
  · refine ⟨msgs.take (msgs.length - maxTurns * 2)
      ++ (pyTailSlice msgs (maxTurns * 2)).takeWhile boundaryBad, ?_⟩
    unfold get_recent_messages
    rw [List.append_assoc, List.takeWhile_append_dropWhile]
    unfold pyTailSlice
    rw [if_neg hm, List.take_append_drop]

/-- Witness for C6's amended theorem at a one-message log and
`max_turns = 1`. -/
theorem recent_messages_window_witness :
    (1 : Nat) ≤ 1
    ∧ ((get_recent_messages [⟨str ("user"), Content.text (str ("hi"))⟩] 1).length ≤ 1 * 2
      ∧ (∃ dropped, dropped ++ get_recent_messages
            [⟨str ("user"), Content.text (str ("hi"))⟩] 1 =
            pyTailSlice [⟨str ("user"), Content.text (str ("hi"))⟩] (1 * 2)
          ∧ ∀ m ∈ dropped, boundaryBad m = true)
      ∧ (∀ m, (get_recent_messages [⟨str ("user"), Content.text (str ("hi"))⟩] 1).head? =
            some m → boundaryBad m = false)
      ∧ ∃ pre, pre ++ get_recent_messages [⟨str ("user"), Content.text (str ("hi"))⟩] 1 =
          [⟨str ("user"), Content.text (str ("hi"))⟩]) :=
  ⟨le_refl 1, recent_messages_window [⟨str ("user"), Content.text (str ("hi"))⟩] 1 (le_refl 1)⟩

/-- Writing another address leaves a cell unchanged. -/
theorem heapRead_write_ne (h : Heap) (a b : Nat) (v : List Message) (hab : a ≠ b) :
    heapRead (heapWrite h a v) b = heapRead h b := by
  simp [heapRead, heapWrite, List.getD_eq_getElem?_getD, List.getElem?_set_ne hab]

/-- Reading below the old length ignores appended cells. -/
theorem heapRead_append_lt (h t : Heap) (a : Nat) (ha : a < h.length) :
    heapRead (h ++ t) a = heapRead h a := by
  simp [heapRead, List.getD_eq_getElem?_getD, List.getElem?_append, ha]

/-- Reading the freshly appended cell. -/
theorem heapRead_append_self (h : Heap) (x : List Message) :
    heapRead (h ++ [x]) h.length = x := by
  simp [heapRead, List.getD_eq_getElem?_getD, List.getElem?_concat_length]

/-- `add_message` sequences never change the number of allocated lists. -/
theorem applyAdds_length :
    ∀ (adds : List (List Char × Content)) (h : Heap) (cm : ContextManager),
      (applyAdds h cm adds).length = h.length := by
  intro adds
  induction adds with
  | nil => intro h cm; rfl
  | cons a rest ih =>
      intro h cm
      obtain ⟨r, c⟩ := a
      rw [applyAdds, ih]
      simp [add_message, heapWrite]

/-- C10: `get_messages` returns a fresh copy — after any sequence of
`add_message` calls, overwriting the returned list object (with any
function of its contents) leaves the internal log unchanged, and a later
`get_messages` still yields the original contents. -/
theorem get_messages_returns_copy (h₀ : Heap) (persona : List Char)
    (adds : List (List Char × Content)) (f : List Message → List Message)
    (cm : ContextManager) (h₂ h₃ : Heap) (r : Nat)
    (hcm : cm = (ContextManager.new h₀ persona).2)
    (hh2 : h₂ = applyAdds (ContextManager.new h₀ persona).1 cm adds)
    (hh3 : h₃ = (get_messages h₂ cm).1) (hr : r = (get_messages h₂ cm).2) :
    heapRead (heapWrite h₃ r (f (heapRead h₃ r))) cm.msgsAddr = heapRead h₂ cm.msgsAddr
    ∧ heapRead (get_messages (heapWrite h₃ r (f (heapRead h₃ r))) cm).1
        ((get_messages (heapWrite h₃ r (f (heapRead h₃ r))) cm).2)
      = heapRead h₂ cm.msgsAddr := by
  have haddr : cm.msgsAddr = h₀.length := by rw [hcm]; rfl
  have hlen : h₂.length = h₀.length + 1 := by
    rw [hh2, applyAdds_length]
    simp [ContextManager.new]
  have hr' : r = h₂.length := by rw [hr]; rfl
  have hne : r ≠ cm.msgsAddr := by omega
  have hlt : cm.msgsAddr < h₂.length := by omega
  have hfirst : heapRead (heapWrite h₃ r (f (heapRead h₃ r))) cm.msgsAddr
      = heapRead h₂ cm.msgsAddr := by
    rw [heapRead_write_ne _ _ _ _ hne, hh3]
    exact heapRead_append_lt h₂ _ cm.msgsAddr hlt
  refine ⟨hfirst, ?_⟩
  rw [show (get_messages (heapWrite h₃ r (f (heapRead h₃ r))) cm).2
      = (heapWrite h₃ r (f (heapRead h₃ r))).length from rfl]
  rw [show (get_messages (heapWrite h₃ r (f (heapRead h₃ r))) cm).1
      = heapWrite h₃ r (f (heapRead h₃ r))
        ++ [heapRead (heapWrite h₃ r (f (heapRead h₃ r))) cm.msgsAddr] from rfl]
  rw [heapRead_append_self, hfirst]

/-- Witness for C10's theorem: one added message, mutation by
self-append. -/
theorem get_messages_returns_copy_witness :
    (⟨str ("p"), [], 0⟩ : ContextManager) = (ContextManager.new [] (str ("p"))).2
    ∧ ([[⟨str ("user"), Content.text (str ("hi"))⟩]] : Heap) =
        applyAdds (ContextManager.new [] (str ("p"))).1 ⟨str ("p"), [], 0⟩
          [(str ("user"), Content.text (str ("hi")))]
    ∧ ([[⟨str ("user"), Content.text (str ("hi"))⟩],
        [⟨str ("user"), Content.text (str ("hi"))⟩]] : Heap) =
        (get_messages [[⟨str ("user"), Content.text (str ("hi"))⟩]] ⟨str ("p"), [], 0⟩).1
    ∧ (1 : Nat) =
        (get_messages [[⟨str ("user"), Content.text (str ("hi"))⟩]] ⟨str ("p"), [], 0⟩).2
    ∧ (heapRead (heapWrite
          [[⟨str ("user"), Content.text (str ("hi"))⟩],
           [⟨str ("user"), Content.text (str ("hi"))⟩]] 1
          ((fun l => l ++ l) (heapRead
            [[⟨str ("user"), Content.text (str ("hi"))⟩],
             [⟨str ("user"), Content.text (str ("hi"))⟩]] 1)))
          (⟨str ("p"), [], 0⟩ : ContextManager).msgsAddr
        = heapRead [[⟨str ("user"), Content.text (str ("hi"))⟩]]
            (⟨str ("p"), [], 0⟩ : ContextManager).msgsAddr
      ∧ heapRead (get_messages (heapWrite
          [[⟨str ("user"), Content.text (str ("hi"))⟩],
           [⟨str ("user"), Content.text (str ("hi"))⟩]] 1
          ((fun l => l ++ l) (heapRead
            [[⟨str ("user"), Content.text (str ("hi"))⟩],
             [⟨str ("user"), Content.text (str ("hi"))⟩]] 1))) ⟨str ("p"), [], 0⟩).1
          ((get_messages (heapWrite
            [[⟨str ("user"), Content.text (str ("hi"))⟩],
             [⟨str ("user"), Content.text (str ("hi"))⟩]] 1
            ((fun l => l ++ l) (heapRead
              [[⟨str ("user"), Content.text (str ("hi"))⟩],
               [⟨str ("user"), Content.text (str ("hi"))⟩]] 1))) ⟨str ("p"), [], 0⟩).2)
        = heapRead [[⟨str ("user"), Content.text (str ("hi"))⟩]]
            (⟨str ("p"), [], 0⟩ : ContextManager).msgsAddr) :=
  ⟨by decide, by decide, by decide, by decide,
   get_messages_returns_copy [] (str ("p")) [(str ("user"), Content.text (str ("hi")))]
     (fun l => l ++ l) ⟨str ("p"), [], 0⟩
     [[⟨str ("user"), Content.text (str ("hi"))⟩]]
     [[⟨str ("user"), Content.text (str ("hi"))⟩],
      [⟨str ("user"), Content.text (str ("hi"))⟩]] 1
     (by decide) (by decide) (by decide) (by decide)⟩

/-- Relationship upserts never touch the `entities` table. -/
theorem upsert_relationship_entities (st : Store) (s t : Nat) (ty d : List Char) (w : ℚ) :
    (upsert_relationship st s t ty d w).1.entities = st.entities := by
  unfold upsert_relationship
  cases hf : st.relationships.find? (relKey s t ty) <;> simp

/-- One relationship-loop step never touches the `entities` table. -/
theorem stepRel_entities (m : NameMap) (st : Store) (rel : RelIn) :
    (stepRel m st rel).entities = st.entities := by
  rcases hs : resolveName st m rel.source with _ | s <;>
    rcases ht : resolveName st m rel.target with _ | t <;>
      simp [stepRel, hs, ht, upsert_relationship_entities]

/-- The whole relationship loop never touches the `entities` table. -/
theorem foldl_stepRel_entities (m : NameMap) :
    ∀ (l : List RelIn) (st : Store), (l.foldl (stepRel m) st).entities = st.entities := by
  intro l
  induction l with
  | nil => intro st; rfl
  | cons rel rest ih => intro st; rw [List.foldl_cons, ih, stepRel_entities]

/-- Endpoint resolution reads only the `entities` table. -/
theorem resolveName_congr (st st' : Store) (m : NameMap) (n : List Char)
    (h : st.entities = st'.entities) : resolveName st m n = resolveName st' m n := by
  unfold resolveName get_entity_id_by_name findEntity
  rw [h]

/-- `updateFirst` with a key-preserving rewrite keeps any key inhabited. -/
theorem exists_key_updateFirst {α : Type} (p K : α → Bool) (f : α → α) (l : List α)
    (hK : ∀ x, K x = true → K (f x) = true)
    (h : ∃ x ∈ l, K x = true) : ∃ x ∈ updateFirst p f l, K x = true := by
  induction l with
  | nil => simp at h
  | cons c rest ih =>
      obtain ⟨x, hx, hKx⟩ := h
      by_cases hc : p c = true
      · simp only [updateFirst, if_pos hc]
        rcases List.mem_cons.mp hx with rfl | hx'
        · exact ⟨f x, by simp, hK x hKx⟩
        · exact ⟨x, by simp [hx'], hKx⟩
      · simp only [updateFirst, if_neg hc]
        rcases List.mem_cons.mp hx with rfl | hx'
        · exact ⟨x, by simp, hKx⟩
        · obtain ⟨y, hy, hKy⟩ := ih ⟨x, hx', hKx⟩
          exact ⟨y, by simp [hy], hKy⟩

/-- After upserting a relationship its key is present. -/
theorem upsert_relationship_key_exists (st : Store) (s t : Nat) (ty d : List Char) (w : ℚ) :
    ∃ row ∈ (upsert_relationship st s t ty d w).1.relationships,
      relKey s t ty row = true := by
  unfold upsert_relationship
  cases hf : st.relationships.find? (relKey s t ty) with
  | none =>
      refine ⟨⟨st.nextId, s, t, ty, d, w⟩, by simp, ?_⟩
      simp [relKey]
  | some row =>
      have hrow := List.find?_some hf
      have hmem := List.mem_of_find?_eq_some hf
      simp only []
      exact exists_key_updateFirst _ _ _ _
        (fun x hx => by simpa [relKey] using hx) ⟨row, hmem, hrow⟩

/-- Upserting one relationship keeps every already-present key present. -/
theorem upsert_relationship_key_mono (st : Store) (s t : Nat) (ty d : List Char) (w : ℚ)
    (s' t' : Nat) (ty' : List Char)
    (h : ∃ row ∈ st.relationships, relKey s' t' ty' row = true) :
    ∃ row ∈ (upsert_relationship st s t ty d w).1.relationships,
      relKey s' t' ty' row = true := by
  unfold upsert_relationship
  cases hf : st.relationships.find? (relKey s t ty) with
  | none =>
      obtain ⟨x, hx, hk⟩ := h
      exact ⟨x, by simp [hx], hk⟩
  | some row =>
      simp only []
      exact exists_key_updateFirst _ _ _ _
        (fun x hx => by simpa [relKey] using hx) h

/-- One relationship-loop step keeps every present key present. -/
theorem stepRel_key_mono (m : NameMap) (st : Store) (rel : RelIn)
    (s' t' : Nat) (ty' : List Char)
    (h : ∃ row ∈ st.relationships, relKey s' t' ty' row = true) :
    ∃ row ∈ (stepRel m st rel).relationships, relKey s' t' ty' row = true := by
  rcases hs : resolveName st m rel.source with _ | s <;>
    rcases ht : resolveName st m rel.target with _ | t <;>
      simp only [stepRel, hs, ht]
  · exact h
  · exact h
  · exact h
  · exact upsert_relationship_key_mono st s t rel.relationType rel.description 1 s' t' ty' h

/-- The whole relationship loop keeps every present key present. -/
theorem foldl_stepRel_key_mono (m : NameMap) :
    ∀ (l : List RelIn) (st : Store) (s' t' : Nat) (ty' : List Char),
      (∃ row ∈ st.relationships, relKey s' t' ty' row = true) →
      ∃ row ∈ (l.foldl (stepRel m) st).relationships, relKey s' t' ty' row = true := by
  intro l
  induction l with
  | nil => intro st s' t' ty' h; exact h
  | cons rel rest ih =>
      intro st s' t' ty' h
      rw [List.foldl_cons]
      exact ih _ s' t' ty' (stepRel_key_mono m st rel s' t' ty' h)

/-- A step whose endpoints both resolve leaves its key present. -/
theorem stepRel_adds (m : NameMap) (st : Store) (rel : RelIn) (s t : Nat)
    (hs : resolveName st m rel.source = some s)
    (ht : resolveName st m rel.target = some t) :
    ∃ row ∈ (stepRel m st rel).relationships, relKey s t rel.relationType row = true := by
  simp only [stepRel, hs, ht]
  exact upsert_relationship_key_exists st s t rel.relationType rel.description 1

/-- A step with an unresolved endpoint is the identity on the store. -/
theorem stepRel_skip (m : NameMap) (st : Store) (rel : RelIn)
    (h : resolveName st m rel.source = none ∨ resolveName st m rel.target = none) :
    stepRel m st rel = st := by
  rcases h with h | h
  · simp [stepRel, h]
  · simp only [stepRel, h]
    rcases hs : resolveName st m rel.source with _ | s <;> rfl

/-- Presence of a resolvable relationship after the whole loop, with
resolution read off a reference store sharing the `entities` table. -/
theorem foldl_stepRel_presence (m : NameMap) (stRef : Store) :
    ∀ (l : List RelIn) (st : Store) (rel : RelIn) (s t : Nat),
      rel ∈ l → st.entities = stRef.entities →
      resolveName stRef m rel.source = some s →
      resolveName stRef m rel.target = some t →
      ∃ row ∈ (l.foldl (stepRel m) st).relationships,
        relKey s t rel.relationType row = true := by
  intro l
  induction l with
  | nil => intro st rel s t h; simp at h
  | cons r0 rest ih =>
      intro st rel s t hmem hent hs ht
      rw [List.foldl_cons]
      rcases List.mem_cons.mp hmem with rfl | hmem'
      · have hs' : resolveName st m rel.source = some s := by
          rw [resolveName_congr st stRef m rel.source hent]; exact hs
        have ht' : resolveName st m rel.target = some t := by
          rw [resolveName_congr st stRef m rel.target hent]; exact ht
        exact foldl_stepRel_key_mono m rest _ s t rel.relationType
          (stepRel_adds m st rel s t hs' ht')
      · refine ih _ rel s t hmem' ?_ hs ht
        rw [stepRel_entities]; exact hent

/-- C4 counterexample: with a store already holding entities `A` (id 0)
and `B` (id 1), an extraction whose entity list is empty but whose
relationship `A → B` resolves at both endpoints via the store lookup is
nevertheless not upserted — `save_extraction` returns the store untouched
because of the `if not entities: return` early exit. -/
theorem save_extraction_empty_entities_skips :
    (save_extraction
        ⟨[⟨0, str ("default"), str ("A"), str ("person"), str ("dA"), none, 1⟩,
          ⟨1, str ("default"), str ("B"), str ("person"), str ("dB"), none, 1⟩], [], 2⟩
        [] [⟨str ("A"), str ("B"), str ("knows"), str ("x")⟩] [] =
      ⟨[⟨0, str ("default"), str ("A"), str ("person"), str ("dA"), none, 1⟩,
        ⟨1, str ("default"), str ("B"), str ("person"), str ("dB"), none, 1⟩], [], 2⟩)
    ∧ (save_extraction
        ⟨[⟨0, str ("default"), str ("A"), str ("person"), str ("dA"), none, 1⟩,
          ⟨1, str ("default"), str ("B"), str ("person"), str ("dB"), none, 1⟩], [], 2⟩
        [] [⟨str ("A"), str ("B"), str ("knows"), str ("x")⟩] []).relationships = []
    ∧ resolveName
        ⟨[⟨0, str ("default"), str ("A"), str ("person"), str ("dA"), none, 1⟩,
          ⟨1, str ("default"), str ("B"), str ("person"), str ("dB"), none, 1⟩], [], 2⟩
        [] (str ("A")) = some 0
    ∧ resolveName
        ⟨[⟨0, str ("default"), str ("A"), str ("person"), str ("dA"), none, 1⟩,
          ⟨1, str ("default"), str ("B"), str ("person"), str ("dB"), none, 1⟩], [], 2⟩
        [] (str ("B")) = some 1 := by
  decide

/-- C4 (amended): for every extraction with at least one entity, every
relationship both of whose endpoints resolve — first through the
in-memory name-to-id map built while upserting this extraction's
entities, then through the (spec-modelled) `get_entity_id_by_name` lookup
— ends up upserted in the store, and a relationship with an unresolved
endpoint is skipped: its loop step is the identity, no error.
(Extractions with no entities are skipped entirely by the early return,
even when their relationships would resolve via the store.) -/
theorem save_extraction_relationship_resolution
    (st : Store) (ents : List EntityIn) (rels : List RelIn) (embs : List Emb)
    (rel : RelIn) (hne : ents ≠ []) (hmem : rel ∈ rels) :
    (∀ s t,
      resolveName (upsertEntitiesPhase st [] (ents.zip embs)).1
        (upsertEntitiesPhase st [] (ents.zip embs)).2 rel.source = some s →
      resolveName (upsertEntitiesPhase st [] (ents.zip embs)).1
        (upsertEntitiesPhase st [] (ents.zip embs)).2 rel.target = some t →
      ∃ row ∈ (save_extraction st ents rels embs).relationships,
        row.sourceId = s ∧ row.targetId = t ∧ row.relationType = rel.relationType)
    ∧ ((resolveName (upsertEntitiesPhase st [] (ents.zip embs)).1
          (upsertEntitiesPhase st [] (ents.zip embs)).2 rel.source = none
        ∨ resolveName (upsertEntitiesPhase st [] (ents.zip embs)).1
            (upsertEntitiesPhase st [] (ents.zip embs)).2 rel.target = none) →
        ∀ st' : Store,
          st'.entities = (upsertEntitiesPhase st [] (ents.zip embs)).1.entities →
          stepRel (upsertEntitiesPhase st [] (ents.zip embs)).2 st' rel = st') := by
  have hsave : save_extraction st ents rels embs =
      rels.foldl (stepRel (upsertEntitiesPhase st [] (ents.zip embs)).2)
        (upsertEntitiesPhase st [] (ents.zip embs)).1 := by
    unfold save_extraction
    rw [if_neg hne]
  constructor
  · intro s t hs ht
    rw [hsave]
    obtain ⟨row, hrow, hk⟩ := foldl_stepRel_presence
      (upsertEntitiesPhase st [] (ents.zip embs)).2
      (upsertEntitiesPhase st [] (ents.zip embs)).1 rels
      (upsertEntitiesPhase st [] (ents.zip embs)).1 rel s t hmem rfl hs ht
    refine ⟨row, hrow, ?_⟩
    simpa [relKey] using hk
  · intro hnone st' hent'
    rcases hnone with h | h
    · refine stepRel_skip _ _ _ (Or.inl ?_)
      rw [resolveName_congr st' (upsertEntitiesPhase st [] (ents.zip embs)).1 _ _ hent']
      exact h
    · refine stepRel_skip _ _ _ (Or.inr ?_)
      rw [resolveName_congr st' (upsertEntitiesPhase st [] (ents.zip embs)).1 _ _ hent']
      exact h

/-- Witness for C4's amended theorem: a two-entity extraction with one
relationship between them, on an empty store. -/
theorem save_extraction_relationship_resolution_witness :
    ([⟨str ("A"), str ("person"), str ("dA")⟩,
      ⟨str ("B"), str ("person"), str ("dB")⟩] : List EntityIn) ≠ []
    ∧ (⟨str ("A"), str ("B"), str ("knows"), str ("x")⟩ : RelIn) ∈
        [(⟨str ("A"), str ("B"), str ("knows"), str ("x")⟩ : RelIn)]
    ∧ ((∀ s t,
      resolveName (upsertEntitiesPhase ⟨[], [], 0⟩ []
          ([⟨str ("A"), str ("person"), str ("dA")⟩,
            ⟨str ("B"), str ("person"), str ("dB")⟩].zip [[1], [2]])).1
        (upsertEntitiesPhase ⟨[], [], 0⟩ []
          ([⟨str ("A"), str ("person"), str ("dA")⟩,
            ⟨str ("B"), str ("person"), str ("dB")⟩].zip [[1], [2]])).2
        (⟨str ("A"), str ("B"), str ("knows"), str ("x")⟩ : RelIn).source = some s →
      resolveName (upsertEntitiesPhase ⟨[], [], 0⟩ []
          ([⟨str ("A"), str ("person"), str ("dA")⟩,
            ⟨str ("B"), str ("person"), str ("dB")⟩].zip [[1], [2]])).1
        (upsertEntitiesPhase ⟨[], [], 0⟩ []
          ([⟨str ("A"), str ("person"), str ("dA")⟩,
            ⟨str ("B"), str ("person"), str ("dB")⟩].zip [[1], [2]])).2
        (⟨str ("A"), str ("B"), str ("knows"), str ("x")⟩ : RelIn).target = some t →
      ∃ row ∈ (save_extraction ⟨[], [], 0⟩
          [⟨str ("A"), str ("person"), str ("dA")⟩,
           ⟨str ("B"), str ("person"), str ("dB")⟩]
          [⟨str ("A"), str ("B"), str ("knows"), str ("x")⟩] [[1], [2]]).relationships,
        row.sourceId = s ∧ row.targetId = t ∧
          row.relationType = (⟨str ("A"), str ("B"), str ("knows"), str ("x")⟩ : RelIn).relationType)
    ∧ ((resolveName (upsertEntitiesPhase ⟨[], [], 0⟩ []
          ([⟨str ("A"), str ("person"), str ("dA")⟩,
            ⟨str ("B"), str ("person"), str ("dB")⟩].zip [[1], [2]])).1
        (upsertEntitiesPhase ⟨[], [], 0⟩ []
          ([⟨str ("A"), str ("person"), str ("dA")⟩,
            ⟨str ("B"), str ("person"), str ("dB")⟩].zip [[1], [2]])).2
        (⟨str ("A"), str ("B"), str ("knows"), str ("x")⟩ : RelIn).source = none
        ∨ resolveName (upsertEntitiesPhase ⟨[], [], 0⟩ []
            ([⟨str ("A"), str ("person"), str ("dA")⟩,
              ⟨str ("B"), str ("person"), str ("dB")⟩].zip [[1], [2]])).1
          (upsertEntitiesPhase ⟨[], [], 0⟩ []
            ([⟨str ("A"), str ("person"), str ("dA")⟩,
              ⟨str ("B"), str ("person"), str ("dB")⟩].zip [[1], [2]])).2
          (⟨str ("A"), str ("B"), str ("knows"), str ("x")⟩ : RelIn).target = none) →
        ∀ st' : Store,
          st'.entities = (upsertEntitiesPhase ⟨[], [], 0⟩ []
            ([⟨str ("A"), str ("person"), str ("dA")⟩,
              ⟨str ("B"), str ("person"), str ("dB")⟩].zip [[1], [2]])).1.entities →
          stepRel (upsertEntitiesPhase ⟨[], [], 0⟩ []
            ([⟨str ("A"), str ("person"), str ("dA")⟩,
              ⟨str ("B"), str ("person"), str ("dB")⟩].zip [[1], [2]])).2 st'
            ⟨str ("A"), str ("B"), str ("knows"), str ("x")⟩ = st')) :=
  ⟨by decide, by simp,
   save_extraction_relationship_resolution ⟨[], [], 0⟩
     [⟨str ("A"), str ("person"), str ("dA")⟩, ⟨str ("B"), str ("person"), str ("dB")⟩]
     [⟨str ("A"), str ("B"), str ("knows"), str ("x")⟩] [[1], [2]]
     ⟨str ("A"), str ("B"), str ("knows"), str ("x")⟩ (by decide) (by simp)⟩

/-- A leading all-whitespace run is skipped when no word is pending. -/
theorem wordsAux_space_pre (s b : List Char) (hs : ∀ c ∈ s, pyIsSpace c = true) :
    wordsAux (s ++ b) [] = wordsAux b [] := by
  induction s with
  | nil => rfl
  | cons c rest ih =>
      have hc : pyIsSpace c = true := hs c (by simp)
      simp only [List.cons_append, wordsAux, hc, if_true, reduceIte]
      exact ih (fun c' hc' => hs c' (by simp [hc']))

/-- Cutting at a nonempty all-whitespace separator splits the word list,
for any prefix and any pending word. -/
theorem wordsAux_split (s b : List Char) (hs : ∀ c ∈ s, pyIsSpace c = true)
    (hne : s ≠ []) :
    ∀ (a acc : List Char),
      wordsAux (a ++ (s ++ b)) acc = wordsAux a acc ++ wordsAux b [] := by
  intro a
  induction a with
  | nil =>
      intro acc
      obtain ⟨d, s', rfl⟩ := List.exists_cons_of_ne_nil hne
      have hd : pyIsSpace d = true := hs d (by simp)
      have hs' : ∀ c ∈ s', pyIsSpace c = true := fun c hc => hs c (by simp [hc])
      simp only [List.nil_append, List.cons_append, wordsAux, hd, if_true, reduceIte,
        List.append_eq]
      rw [wordsAux_space_pre s' b hs']
      by_cases hacc : acc = [] <;> simp [wordsAux, hacc]
  | cons c a' ih =>
      intro acc
      by_cases hc : pyIsSpace c = true
      · by_cases hacc : acc = [] <;>
          simp [wordsAux, hc, hacc, ih]
      · simp only [List.cons_append, wordsAux, hc]
        simp only [Bool.false_eq_true, if_false]
        exact ih (c :: acc)

/-- `wordsOf` version of the split lemma. -/
theorem wordsOf_split (a s b : List Char) (hs : ∀ c ∈ s, pyIsSpace c = true)
    (hne : s ≠ []) : wordsOf (a ++ (s ++ b)) = wordsOf a ++ wordsOf b :=
  wordsAux_split s b hs hne a []

/-- Trailing whitespace contributes no words. -/
theorem wordsOf_append_space (a s : List Char) (hs : ∀ c ∈ s, pyIsSpace c = true) :
    wordsOf (a ++ s) = wordsOf a := by
  cases s with
  | nil => simp
  | cons d s' =>
      have h := wordsOf_split a (d :: s') [] hs (by simp)
      rw [List.append_nil] at h
      simpa [wordsOf, wordsAux] using h

/-- Any list splits as its right-stripped core plus its whitespace tail. -/
theorem reverse_decomp (p : Char → Bool) (x : List Char) :
    x = (x.reverse.dropWhile p).reverse ++ (x.reverse.takeWhile p).reverse := by
  conv_lhs => rw [← List.reverse_reverse x]
  rw [← List.reverse_append, List.takeWhile_append_dropWhile]

/-- Stripping does not change the words. -/
theorem wordsOf_strip (l : List Char) : wordsOf (pyStrip l) = wordsOf l := by
  have h1 : wordsOf (l.takeWhile pyIsSpace ++ l.dropWhile pyIsSpace) =
      wordsOf (l.dropWhile pyIsSpace) :=
    wordsAux_space_pre _ _ (fun c hc => List.mem_takeWhile_imp hc)
  have h2 := reverse_decomp pyIsSpace (l.dropWhile pyIsSpace)
  have h3 : wordsOf (l.dropWhile pyIsSpace) = wordsOf (pyStrip l) := by
    conv_lhs => rw [h2]
    exact wordsOf_append_space _ _
      (fun c hc => List.mem_takeWhile_imp (List.mem_reverse.mp hc))
  rw [← h3, ← h1, List.takeWhile_append_dropWhile]

/-- `dropWhile` leaves the last element alone when it leaves anything. -/
theorem getLast?_dropWhile (p : Char → Bool) :
    ∀ l : List Char, l.dropWhile p ≠ [] → (l.dropWhile p).getLast? = l.getLast? := by
  intro l
  induction l with
  | nil => intro h; simp at h
  | cons c rest ih =>
      intro h
      by_cases hc : p c = true
      · rw [List.dropWhile_cons, if_pos hc] at h ⊢
        have hrest : rest ≠ [] := by
          intro hr; rw [hr] at h; simp at h
        rw [ih h]
        cases rest with
        | nil => exact absurd rfl hrest
        | cons b t => rw [List.getLast?_cons_cons]
      · rw [List.dropWhile_cons, if_neg hc]

/-- The last element is a member. -/
theorem getLast?_mem' {α : Type} (l : List α) (c : α) (h : l.getLast? = some c) :
    c ∈ l := by
  have hd := List.dropLast_append_getLast? c (Option.mem_def.mpr h)
  rw [← hd]
  simp

/-- The last character of a stripped string is never whitespace. -/
theorem pyStrip_getLast_nonspace (l : List Char) (c : Char)
    (h : (pyStrip l).getLast? = some c) : pyIsSpace c = false := by
  unfold pyStrip at h
  rw [List.getLast?_reverse] at h
  exact head?_dropWhile_not _ _ _ h

/-- Stripping a string whose last character is not whitespace leaves the
last character in place. -/
theorem pyStrip_getLast_eq (l : List Char) (c : Char)
    (h : l.getLast? = some c) (hc : pyIsSpace c = false) :
    (pyStrip l).getLast? = l.getLast? := by
  have hm : l.dropWhile pyIsSpace ≠ [] := by
    intro hnil
    rw [List.dropWhile_eq_nil_iff] at hnil
    have hcc := hnil c (getLast?_mem' l c h)
    rw [hcc] at hc
    exact Bool.noConfusion hc
  have h1 : (l.dropWhile pyIsSpace).getLast? = some c := by
    rw [getLast?_dropWhile pyIsSpace l hm, h]
  have h2 : (l.dropWhile pyIsSpace).reverse.head? = some c := by
    rw [List.head?_reverse]; exact h1
  unfold pyStrip
  cases hx : (l.dropWhile pyIsSpace).reverse with
  | nil => rw [hx] at h2; exact Option.noConfusion h2
  | cons d t =>
      rw [hx] at h2
      obtain rfl : d = c := by simpa using h2
      rw [List.dropWhile_cons, if_neg (by simp [hc])]
      rw [List.getLast?_reverse, h]
      rfl

/-- `takePiece` with no separator returns the whole input as the piece. -/
theorem takePiece_none : ∀ (l p : List Char), takePiece l = (p, none) → p = l := by
  intro l
  induction l with
  | nil =>
      intro p h
      simpa [takePiece] using (congrArg Prod.fst h).symm
  | cons c rest ih =>
      intro p h
      cases rest with
      | nil => simpa [takePiece] using (congrArg Prod.fst h).symm
      | cons d rest' =>
          by_cases hcd : (isTerm c && pyIsSpace d) = true
          · rw [takePiece, if_pos hcd] at h
            have := congrArg Prod.snd h
            simp at this
          · rw [takePiece, if_neg hcd] at h
            have h1 : (takePiece (d :: rest')).2 = none := by
              simpa using congrArg Prod.snd h
            have h2 : p = c :: (takePiece (d :: rest')).1 := by
              simpa using (congrArg Prod.fst h).symm
            have h3 : takePiece (d :: rest') = ((takePiece (d :: rest')).1, none) := by
              rw [← h1]
            rw [h2, ih _ h3]

/-- `takePiece` with a separator: the input is the piece, a nonempty
all-whitespace run, then the strictly shorter rest. -/
theorem takePiece_some : ∀ (l p r : List Char), takePiece l = (p, some r) →
    ∃ s, l = p ++ (s ++ r) ∧ (∀ c ∈ s, pyIsSpace c = true) ∧ s ≠ []
      ∧ r.length < l.length := by
  intro l
  induction l with
  | nil =>
      intro p r h
      have := congrArg Prod.snd h
      simp [takePiece] at this
  | cons c rest ih =>
      intro p r h
      cases rest with
      | nil =>
          have := congrArg Prod.snd h
          simp [takePiece] at this
      | cons d rest' =>
          by_cases hcd : (isTerm c && pyIsSpace d) = true
          · rw [takePiece, if_pos hcd] at h
            have hd : pyIsSpace d = true := by
              simp only [Bool.and_eq_true] at hcd
              exact hcd.2
            have hp : p = [c] := by
              simpa using (congrArg Prod.fst h).symm
            have hr : r = (d :: rest').dropWhile pyIsSpace := by
              simpa using (congrArg Prod.snd h).symm
            refine ⟨(d :: rest').takeWhile pyIsSpace, ?_, ?_, ?_, ?_⟩
            · rw [hp, hr, List.takeWhile_append_dropWhile]
              rfl
            · exact fun c' hc' => List.mem_takeWhile_imp hc'
            · rw [List.takeWhile_cons, if_pos hd]
              simp
            · rw [hr, List.dropWhile_cons, if_pos hd]
              have := (List.dropWhile_sublist (l := rest') pyIsSpace).length_le
              simp only [List.length_cons]
              omega
          · rw [takePiece, if_neg hcd] at h
            have h1 : (takePiece (d :: rest')).2 = some r := by
              simpa using congrArg Prod.snd h
            have h2 : p = c :: (takePiece (d :: rest')).1 := by
              simpa using (congrArg Prod.fst h).symm
            have h3 : takePiece (d :: rest') = ((takePiece (d :: rest')).1, some r) := by
              rw [← h1]
            obtain ⟨s, hl, hs, hsne, hlen⟩ := ih _ _ h3
            refine ⟨s, ?_, hs, hsne, ?_⟩
            · rw [h2, List.cons_append, ← hl]
            · simp only [List.length_cons] at hlen ⊢
              omega

/-- `splitGo` never returns an empty list of pieces. -/
theorem splitGo_ne_nil (fuel : Nat) (l : List Char) : splitGo fuel l ≠ [] := by
  cases fuel with
  | zero => simp [splitGo]
  | succ n =>
      rcases h : takePiece l with ⟨p, _ | r⟩ <;> simp [splitGo, h]

/-- With enough fuel, splitting preserves the words. -/
theorem splitGo_words : ∀ (fuel : Nat) (l : List Char), l.length ≤ fuel →
    ((splitGo fuel l).map wordsOf).flatten = wordsOf l := by
  intro fuel
  induction fuel with
  | zero =>
      intro l hl
      obtain rfl : l = [] := List.length_eq_zero.mp (Nat.le_zero.mp hl)
      simp [splitGo, wordsOf, wordsAux]
  | succ n ih =>
      intro l hl
      rcases h : takePiece l with ⟨p, _ | r⟩
      · obtain rfl : p = l := takePiece_none l p h
        simp [splitGo, h]
      · obtain ⟨s, hl', hs, hsne, hlen⟩ := takePiece_some l p r h
        simp only [splitGo, h, List.map_cons, List.flatten_cons]
        rw [ih r (by omega), hl']
        exact (wordsOf_split p s r hs hsne).symm

/-- With enough fuel, the last piece carries the last character of the
input, provided the input does not end in whitespace. -/
theorem splitGo_getLast : ∀ (fuel : Nat) (l : List Char), l.length ≤ fuel →
    (∀ c, l.getLast? = some c → pyIsSpace c = false) →
    ∃ q, (splitGo fuel l).getLast? = some q ∧ q.getLast? = l.getLast? := by
  intro fuel
  induction fuel with
  | zero =>
      intro l hl _
      obtain rfl : l = [] := List.length_eq_zero.mp (Nat.le_zero.mp hl)
      exact ⟨[], by simp [splitGo], rfl⟩
  | succ n ih =>
      intro l hl hns
      rcases h : takePiece l with ⟨p, _ | r⟩
      · refine ⟨p, by simp [splitGo, h], ?_⟩
        rw [takePiece_none l p h]
      · obtain ⟨s, hl', hs, hsne, hlen⟩ := takePiece_some l p r h
        have hrne : r ≠ [] := by
          intro hr
          subst hr
          obtain ⟨cs, hcs⟩ : ∃ cs, s.getLast? = some cs := by
            cases hx : s.getLast? with
            | none => exact absurd (List.getLast?_eq_none_iff.mp hx) hsne
            | some cs => exact ⟨cs, rfl⟩
          have hlast : l.getLast? = some cs := by
            rw [hl', List.append_nil, List.getLast?_append_of_ne_nil _ hsne, hcs]
          have hfalse := hns cs hlast
          have htrue : pyIsSpace cs = true := hs cs (getLast?_mem' s cs hcs)
          rw [htrue] at hfalse
          exact Bool.noConfusion hfalse
        have hrlast : r.getLast? = l.getLast? := by
          rw [hl', List.getLast?_append_of_ne_nil _ (by simp [hrne]),
            List.getLast?_append_of_ne_nil _ hrne]
        obtain ⟨q, hq1, hq2⟩ := ih r (by omega)
          (fun c hc => hns c (by rw [← hrlast]; exact hc))
        refine ⟨q, ?_, by rw [hq2, hrlast]⟩
        simp only [splitGo, h]
        cases hx : splitGo n r with
        | nil => exact absurd hx (splitGo_ne_nil n r)
        | cons q0 qs =>
            rw [hx] at hq1
            rw [List.getLast?_cons_cons]
            exact hq1

/-- Stripping pieces and dropping the empty ones does not change the
concatenated words. -/
theorem strip_filter_words (parts : List (List Char)) :
    (((parts.map pyStrip).filter (· ≠ [])).map wordsOf).flatten =
      (parts.map wordsOf).flatten := by
  induction parts with
  | nil => rfl
  | cons p ps ih =>
      simp only [List.map_cons, List.filter_cons]
      by_cases hp : pyStrip p = []
      · have hw : wordsOf p = [] := by rw [← wordsOf_strip p, hp]; rfl
        rw [hp]
        rw [if_neg (by decide)]
        rw [List.flatten_cons, hw, List.nil_append]
        simpa using ih
      · have hw : wordsOf (pyStrip p) = wordsOf p := wordsOf_strip p
        rw [if_pos (by simp [hp])]
        rw [List.map_cons, List.flatten_cons, List.flatten_cons, hw]
        rw [ih]


/-- C7 counterexample: on input `"a.b"` (a terminator not followed by
whitespace) the remainder is `"a.b"` itself, which contains the sentence
terminator `.` — the remainder is not terminator-free as claimed. -/
theorem chunk_remainder_with_terminator :
    (chunk_sentences (str ("a.b"))).1 = []
    ∧ (chunk_sentences (str ("a.b"))).2 = str ("a.b")
    ∧ '.' ∈ (chunk_sentences (str ("a.b"))).2
    ∧ isTerm '.' = true := by
  decide

/-- C7 (amended): for every input, the words of the complete sentences
followed by the words of the remainder are exactly the words of the input
(concatenation equals the input modulo whitespace normalization), and the
remainder never ENDS with a sentence terminator (it may contain one
internally, as in `"a.b"`). -/
theorem chunk_sentences_words_round_trip (text : List Char) :
    (((chunk_sentences text).1.map wordsOf).flatten ++ wordsOf (chunk_sentences text).2
      = wordsOf text)
    ∧ endsTermB (chunk_sentences text).2 = false := by
  by_cases hstr : pyStrip text = []
  · have hres : chunk_sentences text = ([], []) := by
      simp only [chunk_sentences]
      rw [if_pos hstr]
    rw [hres]
    refine ⟨?_, rfl⟩
    rw [← wordsOf_strip text, hstr]
    rfl
  · rcases hlast : (splitSentences (pyStrip text)).getLast? with _ | lastP
    · exact absurd (List.getLast?_eq_none_iff.mp hlast) (splitGo_ne_nil _ _)
    · have hjw : ((splitSentences (pyStrip text)).map wordsOf).flatten
          = wordsOf (pyStrip text) := splitGo_words _ _ (le_refl _)
      obtain ⟨q, hq1, hq2⟩ := splitGo_getLast (pyStrip text).length (pyStrip text)
        (le_refl _) (fun c hc => pyStrip_getLast_nonspace text c hc)
      have hq1' : some lastP = some q := by rw [← hlast]; exact hq1
      obtain rfl : lastP = q := Option.some.inj hq1'
      have hdecomp : (splitSentences (pyStrip text)).dropLast ++ [lastP]
          = splitSentences (pyStrip text) :=
        List.dropLast_append_getLast? lastP (Option.mem_def.mpr hlast)
      have hsplit : ((splitSentences (pyStrip text)).map wordsOf).flatten
          = ((splitSentences (pyStrip text)).dropLast.map wordsOf).flatten
            ++ wordsOf lastP := by
        conv_lhs => rw [← hdecomp]
        rw [List.map_append, List.flatten_append]
        simp
      by_cases hterm : endsTermB lastP = true
      · have hres : chunk_sentences text =
            (((splitSentences (pyStrip text)).map pyStrip).filter (· ≠ []), []) := by
          simp only [chunk_sentences]
          rw [if_neg hstr]
          simp only [hlast]
          rw [if_pos hterm]
        rw [hres]
        refine ⟨?_, rfl⟩
        rw [strip_filter_words, hjw, wordsOf_strip]
        simp [wordsOf, wordsAux]
      · have hterm' : endsTermB lastP = false := by
          revert hterm; cases endsTermB lastP <;> simp
        obtain ⟨c0, hc0⟩ : ∃ c0, (pyStrip text).getLast? = some c0 := by
          cases hx : (pyStrip text).getLast? with
          | none => exact absurd (List.getLast?_eq_none_iff.mp hx) hstr
          | some c0 => exact ⟨c0, rfl⟩
        have hc0ns : pyIsSpace c0 = false := pyStrip_getLast_nonspace text c0 hc0
        have hlastPlast : lastP.getLast? = some c0 := by rw [hq2, hc0]
        have hstriplast : (pyStrip lastP).getLast? = some c0 := by
          rw [pyStrip_getLast_eq lastP c0 hlastPlast hc0ns, hlastPlast]
        have hendstrip : endsTermB (pyStrip lastP) = false := by
          unfold endsTermB at hterm' ⊢
          rw [hstriplast]
          rw [hlastPlast] at hterm'
          exact hterm'
        have hwords : ((((splitSentences (pyStrip text)).dropLast.map pyStrip).filter
              (· ≠ [])).map wordsOf).flatten ++ wordsOf (pyStrip lastP)
            = wordsOf text := by
          rw [strip_filter_words, wordsOf_strip lastP, ← hsplit, hjw, wordsOf_strip]
        by_cases hmax : MAX_BUFFER_CHARS < (pyStrip lastP).length
        · have hres : chunk_sentences text =
              (((splitSentences (pyStrip text)).dropLast.map pyStrip).filter (· ≠ [])
                ++ [pyStrip lastP], []) := by
            simp only [chunk_sentences]
            rw [if_neg hstr]
            simp only [hlast]
            rw [if_neg (by rw [hterm']; exact Bool.noConfusion), if_pos hmax]
          rw [hres]
          refine ⟨?_, rfl⟩
          rw [List.map_append, List.flatten_append]
          simpa [wordsOf, wordsAux] using hwords
        · have hres : chunk_sentences text =
              (((splitSentences (pyStrip text)).dropLast.map pyStrip).filter (· ≠ []),
                pyStrip lastP) := by
            simp only [chunk_sentences]
            rw [if_neg hstr]
            simp only [hlast]
            rw [if_neg (by rw [hterm']; exact Bool.noConfusion), if_neg hmax]
          rw [hres]
          exact ⟨hwords, hendstrip⟩


/-- C9: the returned remainder is never longer than `MAX_BUFFER_CHARS`
(2000): whenever the stripped terminator-free tail exceeds the bound, it
is flushed into the complete list as the final sentence and the returned
remainder is empty. -/
theorem chunk_remainder_bounded (text : List Char) :
    (chunk_sentences text).2.length ≤ MAX_BUFFER_CHARS
    ∧ (MAX_BUFFER_CHARS < (rawTail text).length →
        (chunk_sentences text).2 = []
        ∧ (chunk_sentences text).1.getLast? = some (rawTail text)) := by
  by_cases hstr : pyStrip text = []
  · have hres : chunk_sentences text = ([], []) := by
      simp only [chunk_sentences]
      rw [if_pos hstr]
    have hraw : rawTail text = [] := by
      simp only [rawTail]
      rw [if_pos hstr]
    rw [hres, hraw]
    exact ⟨by simp [MAX_BUFFER_CHARS], fun h => absurd h (by simp)⟩
  · rcases hlast : (splitSentences (pyStrip text)).getLast? with _ | lastP
    · exact absurd (List.getLast?_eq_none_iff.mp hlast) (splitGo_ne_nil _ _)
    · by_cases hterm : endsTermB lastP = true
      · have hres : chunk_sentences text =
            (((splitSentences (pyStrip text)).map pyStrip).filter (· ≠ []), []) := by
          simp only [chunk_sentences]
          rw [if_neg hstr]
          simp only [hlast]
          rw [if_pos hterm]
        have hraw : rawTail text = [] := by
          simp only [rawTail]
          rw [if_neg hstr]
          simp only [hlast]
          rw [if_pos hterm]
        rw [hres, hraw]
        exact ⟨by simp [MAX_BUFFER_CHARS], fun h => absurd h (by simp)⟩
      · have hterm' : endsTermB lastP = false := by
          revert hterm; cases endsTermB lastP <;> simp
        have hraw : rawTail text = pyStrip lastP := by
          simp only [rawTail]
          rw [if_neg hstr]
          simp only [hlast]
          rw [if_neg (by rw [hterm']; exact Bool.noConfusion)]
        by_cases hmax : MAX_BUFFER_CHARS < (pyStrip lastP).length
        · have hres : chunk_sentences text =
              (((splitSentences (pyStrip text)).dropLast.map pyStrip).filter (· ≠ [])
                ++ [pyStrip lastP], []) := by
            simp only [chunk_sentences]
            rw [if_neg hstr]
            simp only [hlast]
            rw [if_neg (by rw [hterm']; exact Bool.noConfusion), if_pos hmax]
          rw [hres, hraw]
          exact ⟨by simp [MAX_BUFFER_CHARS], fun _ => ⟨rfl, List.getLast?_concat _⟩⟩
        · have hres : chunk_sentences text =
              (((splitSentences (pyStrip text)).dropLast.map pyStrip).filter (· ≠ []),
                pyStrip lastP) := by
            simp only [chunk_sentences]
            rw [if_neg hstr]
            simp only [hlast]
            rw [if_neg (by rw [hterm']; exact Bool.noConfusion), if_neg hmax]
          rw [hres, hraw]
          refine ⟨?_, fun h => absurd h hmax⟩
          show (pyStrip lastP).length ≤ MAX_BUFFER_CHARS
          omega


/-- A run of `'a'`s is untouched by stripping. -/
theorem pyStrip_replicate (n : Nat) :
    pyStrip (List.replicate n 'a') = List.replicate n 'a' := by
  have hdw : List.dropWhile pyIsSpace (List.replicate n 'a') = List.replicate n 'a' := by
    cases n with
    | zero => rfl
    | succ m => rw [List.replicate_succ, List.dropWhile_cons, if_neg (by decide)]
  unfold pyStrip
  rw [hdw, List.reverse_replicate, hdw, List.reverse_replicate]

/-- Without terminators, `takePiece` consumes the whole input. -/
theorem takePiece_no_term : ∀ l : List Char,
    (∀ c ∈ l, isTerm c = false) → takePiece l = (l, none) := by
  intro l
  induction l with
  | nil => intro _; rfl
  | cons c rest ih =>
      intro h
      cases rest with
      | nil => rfl
      | cons d rest' =>
          have hc : isTerm c = false := h c (by simp)
          rw [takePiece, if_neg (by rw [hc]; simp)]
          rw [ih (fun c' hc' => h c' (by simp [hc']))]

/-- Without terminators, the whole input is a single piece. -/
theorem splitGo_no_term (fuel : Nat) (l : List Char)
    (h : ∀ c ∈ l, isTerm c = false) : splitGo fuel l = [l] := by
  cases fuel with
  | zero => rfl
  | succ n => simp only [splitGo, takePiece_no_term l h]

/-- The terminator-free tail of a 2001-character run is the whole run. -/
theorem rawTail_replicate_2001 :
    rawTail (List.replicate 2001 'a') = List.replicate 2001 'a' := by
  have hterm : ∀ c ∈ List.replicate 2001 'a', isTerm c = false := by
    intro c hc
    rw [List.eq_of_mem_replicate hc]
    decide
  have hne : List.replicate 2001 'a' ≠ [] := by
    intro h
    have h2 := congrArg List.length h
    rw [List.length_replicate] at h2
    exact absurd h2 (by decide)
  have hsplit : splitSentences (List.replicate 2001 'a') = [List.replicate 2001 'a'] :=
    splitGo_no_term _ _ hterm
  have hlastc : (List.replicate 2001 'a').getLast? = some 'a' := by
    have h2001 : (2001 : Nat) = 2000 + 1 := by norm_num
    rw [h2001, List.replicate_succ' 2000 'a', List.getLast?_concat]
  have hends : endsTermB (List.replicate 2001 'a') = false := by
    unfold endsTermB
    rw [hlastc]
    decide
  simp only [rawTail, pyStrip_replicate]
  rw [if_neg hne, hsplit]
  simp only [List.getLast?_singleton]
  rw [if_neg (by rw [hends]; exact Bool.noConfusion)]
  exact pyStrip_replicate 2001

/-- Witness for C9's theorem at a 2001-character terminator-free input. -/
theorem chunk_remainder_bounded_witness :
    MAX_BUFFER_CHARS < (rawTail (List.replicate 2001 'a')).length
    ∧ ((chunk_sentences (List.replicate 2001 'a')).2.length ≤ MAX_BUFFER_CHARS
      ∧ ((chunk_sentences (List.replicate 2001 'a')).2 = []
        ∧ (chunk_sentences (List.replicate 2001 'a')).1.getLast? =
            some (rawTail (List.replicate 2001 'a')))) := by
  have hyp : MAX_BUFFER_CHARS < (rawTail (List.replicate 2001 'a')).length := by
    rw [rawTail_replicate_2001, List.length_replicate]
    decide
  exact ⟨hyp, (chunk_remainder_bounded (List.replicate 2001 'a')).1,
    (chunk_remainder_bounded (List.replicate 2001 'a')).2 hyp⟩

end Prot
